import Mathlib

/-!
Verification of the issue-reconciliation pack: GitHub issue client
(`lib/review/issue.ts`), issue-managing review listeners
(`lib/review/issueManagingReviewListeners.ts`), legacy-comment filtering
and the branch-deletion event listener.  Strings are embedded as lists of
characters; JavaScript string methods become the corresponding list
operations.
-/

set_option maxRecDepth 4000

/-- A JavaScript string, embedded as a list of characters. -/
abbrev Str := List Char

/-- `String.prototype.toLowerCase`, character by character. -/
def toLowerStr (s : Str) : Str := s.map Char.toLower

namespace IssuePack

/-- Issue state as stored by GitHub: `"open"` or `"closed"`. -/
inductive IssueState where
  | opened
  | closed
deriving DecidableEq, Repr

/-- The subset of GitHub issue fields the pack reads and writes
(`KnownIssue` in `lib/review/issue.ts`). -/
structure KnownIssue where
  title : Str
  body : Str
  state : IssueState
  number : Nat
  url : Str
deriving DecidableEq, Repr

/-- An issue payload as sent to the GitHub API (`Issue`); absent fields are
`none`, matching `undefined`. -/
structure Issue where
  title : Option Str := none
  body : Str := []
  state : Option IssueState := none
  labels : Option (List Str) := none
deriving DecidableEq, Repr

/-! ## Body truncation (`truncateBodyIfTooLarge`, lib/review/issue.ts) -/

/-- `const bodySizeLimit = 65536 - 1000` in `truncateBodyIfTooLarge`. -/
def bodySizeLimit : Nat := 65536 - 1000

/-- The fixed replacement text of the regex in `truncateBodyIfTooLarge`:
the body is truncated and the trailing partial line is replaced by this
marker. -/
def truncMarker : Str := "\n_Body truncated…_\n".data

/-- Everything of `s` strictly before its last newline.  The regex
`\n.*$` (no `m` flag, `.` not matching newlines) matches the last newline
of the string together with the characters after it, so `replace` keeps
exactly this prefix. -/
def dropLastLine (s : Str) : Str :=
  ((s.reverse.dropWhile (fun c => decide (c ≠ '\n'))).tail).reverse

/-- `s.replace(/\n.*$/, "\n_Body truncated…_\n")`: when `s` has a newline
the last line is replaced by the marker (whose first character is itself a
newline); when it has none the regex does not match and `s` is returned
unchanged. -/
def replaceTrailingLine (s : Str) : Str :=
  if '\n' ∈ s then dropLastLine s ++ truncMarker else s

/-- `truncateBodyIfTooLarge` from `lib/review/issue.ts`. -/
def truncateBodyIfTooLarge (body : Str) : Str :=
  if body.length < bodySizeLimit then body
  else replaceTrailingLine (body.take bodySizeLimit)

/-! ## Label injection (`addCodeInspectionLabel`, `createIssue`,
`updateIssue` in lib/review/issue.ts) -/

/-- `const CodeInspectionIssueLabel = "code-inspection"`. -/
def codeInspectionIssueLabel : Str := "code-inspection".data

/-- `addCodeInspectionLabel` from `lib/review/issue.ts`: default the label
list to `[]` and push the code-inspection label when it is missing. -/
def addCodeInspectionLabel (issue : Issue) : Issue :=
  let ls := issue.labels.getD []
  { issue with
    labels := some (if codeInspectionIssueLabel ∈ ls then ls else ls ++ [codeInspectionIssueLabel]) }

/-- The payload `updateIssue` PATCHes: `safeIssue` keeps only state and
body, then the label is re-injected. -/
def updateIssuePayload (issue : KnownIssue) : Issue :=
  addCodeInspectionLabel { body := issue.body, state := some issue.state }

/-- The payload `createIssue` POSTs: the caller-supplied issue with the
label re-injected. -/
def createIssuePayload (issue : Issue) : Issue :=
  addCodeInspectionLabel issue

end IssuePack

namespace IssuePack

/-! ## Review comments (data model shared by the reviewers and listeners) -/

/-- Review-comment severity. -/
inductive Severity where
  | info
  | warn
  | error
deriving DecidableEq, Repr

/-- A source location attached to a review comment; `lineFrom1` and
`offset` may be absent. -/
structure SourceLocation where
  path : Str
  lineFrom1 : Option Nat := none
  offset : Option Nat := none
deriving DecidableEq, Repr

/-- One finding of a code-inspection reviewer (`ReviewComment`):
`subcategory` and `sourceLocation` are optional. -/
structure ReviewComment where
  category : Str
  subcategory : Option Str := none
  severity : Severity
  detail : Str
  sourceLocation : Option SourceLocation := none
deriving DecidableEq, Repr

/-! ## The tag embedded in managed issue bodies -/

/-- `createTag` of the 2018 listener file: one argument, no branch. -/
def createTag (tag : Str) : Str :=
  "[atomist:code-inspection=".data ++ toLowerStr tag ++ "]".data

/-- Modelled from the spec: the two-argument `createTag(source, branch)` of
the current `lib/review/issueManagingReviewListeners.ts` is missing from
the given sources; only its caller `closeCodeInspectionIssuesListener`
(which invokes `createTag(source, branch)`) is present.  Per the spec the
embedded tag is
`[atomist:code-inspection:<branch-lowercased>=<source-lowercased>]`. -/
def createTagSpec (source branch : Str) : Str :=
  "[atomist:code-inspection:".data ++ toLowerStr branch ++ "=".data ++ toLowerStr source
    ++ "]".data

/-! ## Issue search and the open-first order (`findIssue`, `findIssues`,
`openFirst` in lib/review/issue.ts) -/

/-- `openFirst` from `lib/review/issue.ts`, the comparator passed to
`Array.prototype.sort`: open issues sort before closed ones, and within a
state the issue with the higher number sorts first. -/
def openFirst (a b : KnownIssue) : Int :=
  if a.state = IssueState.opened ∧ b.state = IssueState.closed then -1
  else if b.state = IssueState.opened ∧ a.state = IssueState.closed then 1
  else (b.number : Int) - (a.number : Int)

/-- The non-strict order induced by the `openFirst` comparator. -/
def openFirstLe (a b : KnownIssue) : Prop := openFirst a b ≤ 0

/-- The strict order induced by the `openFirst` comparator. -/
def openFirstLt (a b : KnownIssue) : Prop := openFirst a b < 0

instance : DecidableRel openFirstLe := fun a b => by
  unfold openFirstLe
  infer_instance

instance : IsTotal KnownIssue openFirstLe := by
  constructor
  intro a b
  unfold openFirstLe openFirst
  cases ha : a.state <;> cases hb : b.state <;> simp <;> omega

instance : IsTrans KnownIssue openFirstLe := by
  constructor
  intro a b c hab hbc
  unfold openFirstLe openFirst at *
  cases ha : a.state <;> cases hb : b.state <;> cases hc : c.state <;>
    simp_all <;> omega

/-- The repository path fragment that the search-result filters require in
an issue url: `/owner/repo/issues/`. -/
def repoIssuesPath (owner repo : Str) : Str :=
  "/".data ++ owner ++ "/".data ++ repo ++ "/issues/".data

/-- The default result filter of `findIssue`: exact title match and the
issue url mentions this repository. -/
def issueTitleMatch (owner repo title : Str) (i : KnownIssue) : Bool :=
  decide (i.title = title) && decide (repoIssuesPath owner repo <:+: i.url)

/-- `findIssue` from `lib/review/issue.ts` applied to the items a search
returned: filter by exact title and repository url, return `undefined`
when fewer than one remains, else the first element after sorting with
`openFirst`. -/
def findIssue (returned : List KnownIssue) (owner repo title : Str) : Option KnownIssue :=
  let filtered := returned.filter (issueTitleMatch owner repo title)
  if filtered.length < 1 then none
  else (List.insertionSort openFirstLe filtered).head?

/-- The result filter of `findIssues`: the issue body contains the search
text and the issue url mentions this repository. -/
def issueBodyMatch (owner repo q : Str) (i : KnownIssue) : Bool :=
  decide (q <:+: i.body) && decide (repoIssuesPath owner repo <:+: i.url)

/-- `findIssues` from `lib/review/issue.ts` applied to the items a search
returned: all issues whose body contains the text and whose url mentions
this repository. -/
def findIssues (returned : List KnownIssue) (owner repo q : Str) : List KnownIssue :=
  returned.filter (issueBodyMatch owner repo q)

/-! ## Theorems for body truncation (claim C5) -/

theorem dropLastLine_append_truncMarker_suffix (s : Str) :
    truncMarker <:+ dropLastLine s ++ truncMarker :=
  ⟨dropLastLine s, rfl⟩

/-- C5 (amended): a body shorter than 64536 characters passes through
unchanged; a body of length at least 64536 is truncated to its first 64536
characters, and when that prefix contains a newline the trailing partial
line is replaced by the fixed marker so the result ends with the marker;
when the prefix contains no newline it is returned with no marker. -/
theorem truncateBodyIfTooLarge_spec (body : Str) :
    (body.length < bodySizeLimit → truncateBodyIfTooLarge body = body) ∧
    (bodySizeLimit ≤ body.length →
      (('\n' ∈ body.take bodySizeLimit) →
        truncateBodyIfTooLarge body = dropLastLine (body.take bodySizeLimit) ++ truncMarker ∧
        truncMarker <:+ truncateBodyIfTooLarge body) ∧
      (('\n' ∉ body.take bodySizeLimit) →
        truncateBodyIfTooLarge body = body.take bodySizeLimit)) := by
  refine ⟨fun h => ?_, fun h => ⟨fun hmem => ?_, fun hmem => ?_⟩⟩
  · simp [truncateBodyIfTooLarge, h]
  · have hnot : ¬ body.length < bodySizeLimit := by omega
    have heq : truncateBodyIfTooLarge body
        = dropLastLine (body.take bodySizeLimit) ++ truncMarker := by
      simp [truncateBodyIfTooLarge, hnot, replaceTrailingLine, hmem]
    exact ⟨heq, heq ▸ dropLastLine_append_truncMarker_suffix _⟩
  · have hnot : ¬ body.length < bodySizeLimit := by omega
    simp [truncateBodyIfTooLarge, hnot, replaceTrailingLine, hmem]

/-- A 64536-character body consisting of a single line (no newline),
used to refute the unconditional "ends with the marker" reading. -/
def oneLineHugeBody : Str := List.replicate 64536 'a'

/-- A 64536-character body whose first two characters are `x` and a
newline: the truncation replaces everything after that newline. -/
def twoLineHugeBody : Str := 'x' :: '\n' :: List.replicate 64534 'a'

/-- C5 counterexample: the claim asserts every body of length at least
64536 is returned ending with the truncation marker, but a 64536-character
body with no newline is returned unchanged, with no marker at its end. -/
theorem truncateBodyIfTooLarge_no_newline_counterexample :
    bodySizeLimit ≤ oneLineHugeBody.length ∧
    truncateBodyIfTooLarge oneLineHugeBody = oneLineHugeBody ∧
    ¬ truncMarker <:+ truncateBodyIfTooLarge oneLineHugeBody := by
  have hlen : oneLineHugeBody.length = 64536 := by
    rw [oneLineHugeBody, List.length_replicate]
  have hle : bodySizeLimit ≤ oneLineHugeBody.length := by
    rw [hlen]; norm_num [bodySizeLimit]
  have hnotlt : ¬ oneLineHugeBody.length < bodySizeLimit := by omega
  have htake : oneLineHugeBody.take bodySizeLimit = oneLineHugeBody := by
    apply List.take_of_length_le
    rw [hlen]; norm_num [bodySizeLimit]
  have hmem : '\n' ∉ oneLineHugeBody := by
    intro hc
    rw [oneLineHugeBody, List.mem_replicate] at hc
    exact absurd hc.2 (by decide)
  have heq : truncateBodyIfTooLarge oneLineHugeBody = oneLineHugeBody := by
    simp [truncateBodyIfTooLarge, hnotlt, htake, replaceTrailingLine, hmem]
  refine ⟨hle, heq, ?_⟩
  rw [heq]
  intro hsuf
  exact hmem (hsuf.subset (by decide))

/-- C5 witness: the amended theorem applied to a 64536-character two-line
body confirms the marker-terminated truncation on a concrete input. -/
theorem truncateBodyIfTooLarge_spec_witness :
    bodySizeLimit ≤ twoLineHugeBody.length ∧
    '\n' ∈ twoLineHugeBody.take bodySizeLimit ∧
    truncMarker <:+ truncateBodyIfTooLarge twoLineHugeBody := by
  have hlen : twoLineHugeBody.length = 64536 := by
    rw [twoLineHugeBody, List.length_cons, List.length_cons, List.length_replicate]
  have hle : bodySizeLimit ≤ twoLineHugeBody.length := by
    rw [hlen]; norm_num [bodySizeLimit]
  have htake : twoLineHugeBody.take bodySizeLimit = twoLineHugeBody := by
    apply List.take_of_length_le
    rw [hlen]; norm_num [bodySizeLimit]
  have hmem : '\n' ∈ twoLineHugeBody.take bodySizeLimit := by
    rw [htake, twoLineHugeBody]
    exact List.mem_cons_of_mem _ (List.mem_cons_self _ _)
  exact ⟨hle, hmem, (((truncateBodyIfTooLarge_spec twoLineHugeBody).2 hle).1 hmem).2⟩

/-! ## Theorems for the tag format (claim C3) -/

/-- C3: the tag embedded in a managed issue body is exactly
`[atomist:code-inspection:<branch-lowercased>=<source-lowercased>]`; in
particular both the lowercased branch and the lowercased source occur in
it. -/
theorem createTagSpec_format (source branch : Str) :
    createTagSpec source branch =
      "[atomist:code-inspection:".data ++ toLowerStr branch ++ "=".data ++ toLowerStr source
        ++ "]".data ∧
    toLowerStr branch <:+: createTagSpec source branch ∧
    toLowerStr source <:+: createTagSpec source branch := by
  refine ⟨rfl, ?_, ?_⟩
  · exact ⟨"[atomist:code-inspection:".data,
      "=".data ++ toLowerStr source ++ "]".data, by simp [createTagSpec]⟩
  · exact ⟨"[atomist:code-inspection:".data ++ toLowerStr branch ++ "=".data,
      "]".data, by simp [createTagSpec]⟩

/-! ## Theorems for issue search (claim C4) -/

theorem openFirst_tie (m i : KnownIssue) (hle : openFirstLe m i) (hnlt : ¬ openFirstLt m i) :
    m.state = i.state ∧ m.number = i.number := by
  unfold openFirstLe openFirst at hle
  unfold openFirstLt openFirst at hnlt
  cases hm : m.state <;> cases hi : i.state <;> simp_all <;> omega

/-- C4: over any result set the search returned, `findIssue` yields
`undefined` exactly when no issue passes the title-and-repository filter
(never an error), and otherwise the unique minimum of the matching issues
under the `openFirst` order (open before closed; within a state, higher
number first); `findIssues` likewise returns the empty list when nothing
matches.  The result set is assumed to repeat no issue number within a
state, as GitHub issue numbers are unique per repository. -/
theorem findIssue_unique_min (returned : List KnownIssue) (owner repo title q : Str)
    (hnd : (returned.filter (issueTitleMatch owner repo title)).Pairwise
      (fun a b => a.state = b.state → a.number ≠ b.number)) :
    (returned.filter (issueTitleMatch owner repo title) = [] ↔
      findIssue returned owner repo title = none) ∧
    (∀ m, findIssue returned owner repo title = some m →
      m ∈ returned.filter (issueTitleMatch owner repo title) ∧
      ∀ i ∈ returned.filter (issueTitleMatch owner repo title), i = m ∨ openFirstLt m i) ∧
    ((∀ i ∈ returned, issueBodyMatch owner repo q i = false) →
      findIssues returned owner repo q = []) := by
  refine ⟨⟨fun h => ?_, fun h => ?_⟩, fun m hm => ?_, fun h => ?_⟩
  · simp [findIssue, h]
  · by_contra hne
    have hlen : ¬ (returned.filter (issueTitleMatch owner repo title)).length < 1 := by
      rcases hfe : returned.filter (issueTitleMatch owner repo title) with _ | ⟨x, xs⟩
      · exact absurd hfe hne
      · simp [hfe]
    rw [findIssue] at h
    simp only [hlen, if_false] at h
    rw [List.head?_eq_none_iff] at h
    have := (List.perm_insertionSort openFirstLe
      (returned.filter (issueTitleMatch owner repo title))).length_eq
    rw [h] at this
    exact hne (List.length_eq_zero.mp this.symm)
  · rw [findIssue] at hm
    by_cases hlen : (returned.filter (issueTitleMatch owner repo title)).length < 1
    · simp [hlen] at hm
    · simp only [hlen, if_false] at hm
      rcases List.head?_eq_some_iff.mp hm with ⟨rest, hcons⟩
      have hmmem : m ∈ returned.filter (issueTitleMatch owner repo title) := by
        rw [← List.mem_insertionSort openFirstLe, hcons]
        exact List.mem_cons_self _ _
      refine ⟨hmmem, fun i hi => ?_⟩
      have hisort : i ∈ List.insertionSort openFirstLe
          (returned.filter (issueTitleMatch owner repo title)) :=
        (List.mem_insertionSort openFirstLe).mpr hi
      rw [hcons] at hisort
      rcases List.mem_cons.mp hisort with heq | hrest
      · exact Or.inl heq
      · have hsorted := List.sorted_insertionSort openFirstLe
          (returned.filter (issueTitleMatch owner repo title))
        rw [hcons] at hsorted
        have hle : openFirstLe m i := List.rel_of_sorted_cons hsorted i hrest
        by_cases hlt : openFirstLt m i
        · exact Or.inr hlt
        · left
          have htie := openFirst_tie m i hle hlt
          by_contra hne
          have hsymm : Symmetric (fun a b : KnownIssue =>
              a.state = b.state → a.number ≠ b.number) := by
            intro a b hab hst hnum
            exact hab hst.symm hnum.symm
          exact (hnd.forall hsymm hmmem hi (fun hmi => hne hmi.symm) htie.1) htie.2
  · rw [findIssues, List.filter_eq_nil_iff]
    intro a ha
    simp [h a ha]

/-- C4 witness: a concrete result set with one open and one closed issue
sharing the searched title, where the open lower-numbered issue is
returned, plus a body search with no match. -/
theorem findIssue_unique_min_witness :
    ((([⟨"T".data, "b1".data, IssueState.closed, 5, "x/o/r/issues/5".data⟩,
        ⟨"T".data, "b2".data, IssueState.opened, 3, "x/o/r/issues/3".data⟩,
        ⟨"U".data, "b3".data, IssueState.opened, 9, "x/o/r/issues/9".data⟩] :
      List KnownIssue).filter (issueTitleMatch "o".data "r".data "T".data)).Pairwise
      (fun a b => a.state = b.state → a.number ≠ b.number)) ∧
    (∀ m, findIssue
        [⟨"T".data, "b1".data, IssueState.closed, 5, "x/o/r/issues/5".data⟩,
         ⟨"T".data, "b2".data, IssueState.opened, 3, "x/o/r/issues/3".data⟩,
         ⟨"U".data, "b3".data, IssueState.opened, 9, "x/o/r/issues/9".data⟩]
        "o".data "r".data "T".data = some m →
      m ∈ ([⟨"T".data, "b1".data, IssueState.closed, 5, "x/o/r/issues/5".data⟩,
        ⟨"T".data, "b2".data, IssueState.opened, 3, "x/o/r/issues/3".data⟩,
        ⟨"U".data, "b3".data, IssueState.opened, 9, "x/o/r/issues/9".data⟩] :
        List KnownIssue).filter (issueTitleMatch "o".data "r".data "T".data)) := by
  have h := findIssue_unique_min
    [⟨"T".data, "b1".data, IssueState.closed, 5, "x/o/r/issues/5".data⟩,
     ⟨"T".data, "b2".data, IssueState.opened, 3, "x/o/r/issues/3".data⟩,
     ⟨"U".data, "b3".data, IssueState.opened, 9, "x/o/r/issues/9".data⟩]
    "o".data "r".data "T".data "zzz".data (by decide)
  exact ⟨by decide, fun m hm => (h.2.1 m hm).1⟩

/-! ## Theorems for label injection (claim C7) -/

/-- C7: every issue payload sent by the create-issue and update-issue
operations carries the fixed `code-inspection` label: the label is
re-injected into the label list on every create and every update. -/
theorem payloads_carry_codeInspectionIssueLabel (k : KnownIssue) (i : Issue) :
    codeInspectionIssueLabel ∈ (updateIssuePayload k).labels.getD [] ∧
    codeInspectionIssueLabel ∈ (createIssuePayload i).labels.getD [] := by
  constructor
  · simp [updateIssuePayload, addCodeInspectionLabel]
  · rw [createIssuePayload, addCodeInspectionLabel]
    by_cases h : codeInspectionIssueLabel ∈ i.labels.getD []
    · simp [h]
    · simp [h]

end IssuePack

namespace IssuePack

/-! ## Legacy-baseline filtering (`filterOutLegacyComments` and `areEqual`,
per-reviewer legacy filtering file) -/

/-- `areEqual(a, b)` on possibly-absent source locations: `a === b` (true
when both are `undefined`, and reference equality implies the structural
test), else same `path` and same `offset`.  When exactly one side is
`undefined` the dereference `a.path` or `b.path` throws, modeled as
`none`. -/
def areEqual : Option SourceLocation → Option SourceLocation → Option Bool
  | none, none => some true
  | some a, some b => some (decide (a.path = b.path ∧ a.offset = b.offset))
  | _, _ => none

/-- The per-baseline-entry test inside `filterOutLegacyComments`: strict
equality of category, subcategory and detail, then `areEqual` on the
locations.  `&&` short-circuits, so the throwing `areEqual` is reached
only when the three field tests pass. -/
def legacyMatches (lc c : ReviewComment) : Option Bool :=
  if lc.category = c.category ∧ lc.subcategory = c.subcategory ∧ lc.detail = c.detail then
    areEqual lc.sourceLocation c.sourceLocation
  else some false

/-- `Array.prototype.some` with a predicate that can throw: scan left to
right, stop at the first `true`; a thrown exception aborts the scan. -/
def someJs {α : Type} (p : α → Option Bool) : List α → Option Bool
  | [] => some false
  | a :: l =>
    match p a with
    | none => none
    | some true => some true
    | some false => someJs p l

/-- `Array.prototype.filter` with a predicate that can throw. -/
def filterJs {α : Type} (p : α → Option Bool) : List α → Option (List α)
  | [] => some []
  | a :: l =>
    match p a with
    | none => none
    | some true => (filterJs p l).map (fun r => a :: r)
    | some false => filterJs p l

/-- The comment filtering of `filterOutLegacyComments`: keep every live
comment for which no baseline entry matches on category, subcategory,
detail and location. -/
def filterOutLegacyComments (legacyComments comments : List ReviewComment) :
    Option (List ReviewComment) :=
  filterJs (fun c => (someJs (fun lc => legacyMatches lc c) legacyComments).map (fun b => !b))
    comments

/-- The four-field baseline match of claim C6, spelled as a proposition:
equal category, subcategory and detail, and locations equal as same path
and same offset (or both absent). -/
def legacyMatchProp (lc c : ReviewComment) : Prop :=
  lc.category = c.category ∧ lc.subcategory = c.subcategory ∧ lc.detail = c.detail ∧
    ((lc.sourceLocation = none ∧ c.sourceLocation = none) ∨
      (∃ a b, lc.sourceLocation = some a ∧ c.sourceLocation = some b ∧
        a.path = b.path ∧ a.offset = b.offset))

/-- The four-field baseline match as the boolean the code computes. -/
def legacyMatchB (lc c : ReviewComment) : Bool :=
  decide (lc.category = c.category) &&
    (decide (lc.subcategory = c.subcategory) &&
      (decide (lc.detail = c.detail) &&
        (match lc.sourceLocation, c.sourceLocation with
         | none, none => true
         | some a, some b => decide (a.path = b.path ∧ a.offset = b.offset)
         | _, _ => false)))

theorem legacyMatchB_iff (lc c : ReviewComment) :
    legacyMatchB lc c = true ↔ legacyMatchProp lc c := by
  unfold legacyMatchB legacyMatchProp
  rcases ha : lc.sourceLocation with _ | a <;> rcases hb : c.sourceLocation with _ | b <;>
    simp [ha, hb]

theorem someJs_eq_any {α : Type} (p : α → Option Bool) (g : α → Bool) (l : List α)
    (h : ∀ a ∈ l, p a = some (g a)) : someJs p l = some (l.any g) := by
  induction l with
  | nil => rfl
  | cons a l ih =>
    have ha := h a (List.mem_cons_self _ _)
    rw [someJs, ha]
    rcases hg : g a with _ | _
    · rw [hg] at ha
      simp only [List.any_cons, hg, Bool.false_or]
      exact ih (fun b hb => h b (List.mem_cons_of_mem _ hb))
    · rw [hg] at ha
      simp [hg]

theorem filterJs_eq_filter {α : Type} (p : α → Option Bool) (g : α → Bool) (l : List α)
    (h : ∀ a ∈ l, p a = some (g a)) : filterJs p l = some (l.filter g) := by
  induction l with
  | nil => rfl
  | cons a l ih =>
    have ha := h a (List.mem_cons_self _ _)
    have ihl := ih (fun b hb => h b (List.mem_cons_of_mem _ hb))
    rw [filterJs, ha]
    rcases hg : g a with _ | _
    · simp [hg, ihl, List.filter_cons]
    · simp [hg, ihl, List.filter_cons]

theorem legacyMatches_eq_some (lc c : ReviewComment)
    (hlc : lc.sourceLocation.isSome) (hc : c.sourceLocation.isSome) :
    legacyMatches lc c = some (legacyMatchB lc c) := by
  rcases ha : lc.sourceLocation with _ | a
  · rw [ha] at hlc
    simp at hlc
  rcases hb : c.sourceLocation with _ | b
  · rw [hb] at hc
    simp at hc
  rw [legacyMatches]
  unfold legacyMatchB
  rw [ha, hb]
  by_cases hfields : lc.category = c.category ∧ lc.subcategory = c.subcategory ∧
      lc.detail = c.detail
  · rw [if_pos hfields, areEqual]
    simp [hfields.1, hfields.2.1, hfields.2.2]
  · rw [if_neg hfields]
    cases hx : (decide (lc.category = c.category) &&
        (decide (lc.subcategory = c.subcategory) &&
          (decide (lc.detail = c.detail) &&
            decide (a.path = b.path ∧ a.offset = b.offset))))
    · rfl
    · exfalso
      simp only [Bool.and_eq_true, decide_eq_true_eq] at hx
      exact hfields ⟨hx.1, hx.2.1, hx.2.2.1⟩

/-- C6: when every live and baseline comment carries a source location
(where the code cannot throw), the wrapped reviewer keeps a live comment
exactly when no baseline entry matches it on category, subcategory, detail
and source location (same path and same offset); in particular a comment
whose detail differs from every baseline entry is retained. -/
theorem filterOutLegacyComments_spec (legacyComments comments : List ReviewComment)
    (hlegacy : ∀ lc ∈ legacyComments, lc.sourceLocation.isSome)
    (hlive : ∀ c ∈ comments, c.sourceLocation.isSome) :
    ∃ res, filterOutLegacyComments legacyComments comments = some res ∧
      (∀ c, c ∈ res ↔ c ∈ comments ∧ ¬ ∃ lc ∈ legacyComments, legacyMatchProp lc c) ∧
      (∀ c ∈ comments, (∀ lc ∈ legacyComments, lc.detail ≠ c.detail) → c ∈ res) := by
  have hpred : ∀ c ∈ comments,
      (someJs (fun lc => legacyMatches lc c) legacyComments).map (fun b => !b) =
        some (!(legacyComments.any (fun lc => legacyMatchB lc c))) := by
    intro c hc
    rw [someJs_eq_any (fun lc => legacyMatches lc c) (fun lc => legacyMatchB lc c)
      legacyComments
      (fun lc hlc => legacyMatches_eq_some lc c (hlegacy lc hlc) (hlive c hc))]
    rfl
  have hres := filterJs_eq_filter
    (fun c => (someJs (fun lc => legacyMatches lc c) legacyComments).map (fun b => !b))
    (fun c => !(legacyComments.any (fun lc => legacyMatchB lc c)))
    comments hpred
  refine ⟨_, hres, fun c => ?_, fun c hc hdet => ?_⟩
  · rw [List.mem_filter]
    constructor
    · rintro ⟨hcm, hno⟩
      rw [Bool.not_eq_true', List.any_eq_false] at hno
      refine ⟨hcm, ?_⟩
      rintro ⟨lc, hlc, hm⟩
      exact (hno lc hlc) ((legacyMatchB_iff lc c).mpr hm)
    · rintro ⟨hcm, hno⟩
      refine ⟨hcm, ?_⟩
      rw [Bool.not_eq_true', List.any_eq_false]
      intro lc hlc hB
      exact hno ⟨lc, hlc, (legacyMatchB_iff lc c).mp hB⟩
  · rw [List.mem_filter]
    refine ⟨hc, ?_⟩
    rw [Bool.not_eq_true', List.any_eq_false]
    intro lc hlc hB
    exact hdet lc hlc ((legacyMatchB_iff lc c).mp hB).2.2.1

/-- C6 witness: one baseline entry; a live comment matching it exactly is
removed and a live comment differing only in detail is retained. -/
theorem filterOutLegacyComments_spec_witness :
    (∀ lc ∈ [ReviewComment.mk "cat".data (some "sub".data) Severity.warn "d1".data
        (some ⟨"p.ts".data, some 3, some 10⟩)], lc.sourceLocation.isSome) ∧
    (∀ c ∈ [ReviewComment.mk "cat".data (some "sub".data) Severity.warn "d1".data
          (some ⟨"p.ts".data, some 3, some 10⟩),
        ReviewComment.mk "cat".data (some "sub".data) Severity.warn "d2".data
          (some ⟨"p.ts".data, some 3, some 10⟩)], c.sourceLocation.isSome) ∧
    (∃ res, filterOutLegacyComments
        [ReviewComment.mk "cat".data (some "sub".data) Severity.warn "d1".data
          (some ⟨"p.ts".data, some 3, some 10⟩)]
        [ReviewComment.mk "cat".data (some "sub".data) Severity.warn "d1".data
          (some ⟨"p.ts".data, some 3, some 10⟩),
         ReviewComment.mk "cat".data (some "sub".data) Severity.warn "d2".data
          (some ⟨"p.ts".data, some 3, some 10⟩)] = some res ∧
      (∀ c, c ∈ res ↔ c ∈ [ReviewComment.mk "cat".data (some "sub".data) Severity.warn
            "d1".data (some ⟨"p.ts".data, some 3, some 10⟩),
          ReviewComment.mk "cat".data (some "sub".data) Severity.warn "d2".data
            (some ⟨"p.ts".data, some 3, some 10⟩)] ∧
        ¬ ∃ lc ∈ [ReviewComment.mk "cat".data (some "sub".data) Severity.warn "d1".data
            (some ⟨"p.ts".data, some 3, some 10⟩)], legacyMatchProp lc c) ∧
      (∀ c ∈ [ReviewComment.mk "cat".data (some "sub".data) Severity.warn "d1".data
            (some ⟨"p.ts".data, some 3, some 10⟩),
          ReviewComment.mk "cat".data (some "sub".data) Severity.warn "d2".data
            (some ⟨"p.ts".data, some 3, some 10⟩)],
        (∀ lc ∈ [ReviewComment.mk "cat".data (some "sub".data) Severity.warn "d1".data
            (some ⟨"p.ts".data, some 3, some 10⟩)], lc.detail ≠ c.detail) → c ∈ res)) :=
  ⟨by decide, by decide,
    filterOutLegacyComments_spec
      [ReviewComment.mk "cat".data (some "sub".data) Severity.warn "d1".data
        (some ⟨"p.ts".data, some 3, some 10⟩)]
      [ReviewComment.mk "cat".data (some "sub".data) Severity.warn "d1".data
        (some ⟨"p.ts".data, some 3, some 10⟩),
       ReviewComment.mk "cat".data (some "sub".data) Severity.warn "d2".data
        (some ⟨"p.ts".data, some 3, some 10⟩)] (by decide) (by decide)⟩

end IssuePack

namespace IssuePack

/-! ## Generic list helpers: first-occurrence dedup (lodash `_.uniq` and
`_.groupBy` key order), traversal with a throwing function, and sorting of
string keys (`Array.prototype.sort`) -/

/-- The accumulator pass of `_.uniq`: keep elements not seen yet, in
order. -/
def uniqFirstGo {α : Type} [DecidableEq α] (seen : List α) : List α → List α
  | [] => []
  | a :: l => if a ∈ seen then uniqFirstGo seen l else a :: uniqFirstGo (a :: seen) l

/-- `_.uniq`: drop duplicates, keeping each element's first occurrence. -/
def uniqFirst {α : Type} [DecidableEq α] (l : List α) : List α := uniqFirstGo [] l

theorem uniqFirstGo_mem {α : Type} [DecidableEq α] {x : α} :
    ∀ (seen l : List α), x ∈ uniqFirstGo seen l ↔ x ∈ l ∧ x ∉ seen := by
  intro seen l
  induction l generalizing seen with
  | nil => simp [uniqFirstGo]
  | cons a l ih =>
    rw [uniqFirstGo]
    by_cases ha : a ∈ seen
    · rw [if_pos ha, ih]
      constructor
      · rintro ⟨h1, h2⟩
        exact ⟨List.mem_cons_of_mem _ h1, h2⟩
      · rintro ⟨h1, h2⟩
        rcases List.mem_cons.mp h1 with h | h
        · exact absurd (h ▸ ha) h2
        · exact ⟨h, h2⟩
    · rw [if_neg ha]
      constructor
      · intro hx
        rcases List.mem_cons.mp hx with h | h
        · exact ⟨h ▸ List.mem_cons_self _ _, h ▸ ha⟩
        · rcases (ih (a :: seen)).mp h with ⟨h1, h2⟩
          exact ⟨List.mem_cons_of_mem _ h1,
            fun hs => h2 (List.mem_cons_of_mem _ hs)⟩
      · rintro ⟨h1, h2⟩
        rcases List.mem_cons.mp h1 with h | h
        · exact h ▸ List.mem_cons_self _ _
        · by_cases hxa : x = a
          · exact hxa ▸ List.mem_cons_self _ _
          · exact List.mem_cons_of_mem _ ((ih (a :: seen)).mpr
              ⟨h, fun hs => (List.mem_cons.mp hs).elim hxa h2⟩)

theorem uniqFirst_mem {α : Type} [DecidableEq α] {x : α} {l : List α} :
    x ∈ uniqFirst l ↔ x ∈ l := by
  rw [uniqFirst, uniqFirstGo_mem]
  simp

theorem uniqFirstGo_nodup {α : Type} [DecidableEq α] :
    ∀ (seen l : List α), (uniqFirstGo seen l).Nodup := by
  intro seen l
  induction l generalizing seen with
  | nil => exact List.nodup_nil
  | cons a l ih =>
    rw [uniqFirstGo]
    by_cases ha : a ∈ seen
    · rw [if_pos ha]
      exact ih seen
    · rw [if_neg ha]
      refine List.nodup_cons.mpr ⟨?_, ih (a :: seen)⟩
      intro hmem
      exact ((uniqFirstGo_mem _ _).mp hmem).2 (List.mem_cons_self _ _)

theorem uniqFirst_nodup {α : Type} [DecidableEq α] (l : List α) : (uniqFirst l).Nodup :=
  uniqFirstGo_nodup [] l

/-- `Array.prototype.map` with a function that can throw: the first
exception aborts the traversal. -/
def mapOpt {α β : Type} (f : α → Option β) : List α → Option (List β)
  | [] => some []
  | a :: l =>
    match f a with
    | none => none
    | some b => (mapOpt f l).map (fun r => b :: r)

theorem mapOpt_eq_none {α β : Type} (f : α → Option β) {l : List α} {a : α}
    (ha : a ∈ l) (hf : f a = none) : mapOpt f l = none := by
  induction l with
  | nil => cases ha
  | cons x l ih =>
    rcases List.mem_cons.mp ha with h | h
    · rw [mapOpt, ← h, hf]
    · rw [mapOpt]
      cases hx : f x
      · rfl
      · rw [ih h]
        rfl

theorem mapOpt_isSome {α β : Type} (f : α → Option β) {l : List α}
    (h : ∀ a ∈ l, (f a).isSome) : (mapOpt f l).isSome := by
  induction l with
  | nil => rw [mapOpt]; rfl
  | cons x l ih =>
    rw [mapOpt]
    rcases hx : f x with _ | b
    · have hs := h x (List.mem_cons_self _ _)
      rw [hx] at hs
      exact absurd hs (by simp)
    · have hrest := ih (fun a ha => h a (List.mem_cons_of_mem _ ha))
      rcases Option.isSome_iff_exists.mp hrest with ⟨r, hr⟩
      rw [hr]
      rfl

/-- The `body += block` accumulation of the 2018 formatters: concatenate
the blocks of the keys in order, aborting at the first thrown block. -/
def buildBlocks (f : Str → Option Str) : List Str → Option Str
  | [] => some []
  | k :: ks =>
    match f k with
    | none => none
    | some b => (buildBlocks f ks).map (fun r => b ++ r)

theorem buildBlocks_eq_none (f : Str → Option Str) {ks : List Str} {k : Str}
    (hk : k ∈ ks) (hf : f k = none) : buildBlocks f ks = none := by
  induction ks with
  | nil => cases hk
  | cons x ks ih =>
    rcases List.mem_cons.mp hk with h | h
    · rw [buildBlocks, ← h, hf]
    · rw [buildBlocks]
      cases hx : f x
      · rfl
      · rw [ih h]
        rfl

theorem buildBlocks_isSome (f : Str → Option Str) {ks : List Str}
    (h : ∀ k ∈ ks, (f k).isSome) : (buildBlocks f ks).isSome := by
  induction ks with
  | nil => rw [buildBlocks]; rfl
  | cons x ks ih =>
    rw [buildBlocks]
    rcases hx : f x with _ | b
    · have hs := h x (List.mem_cons_self _ _)
      rw [hx] at hs
      exact absurd hs (by simp)
    · have hrest := ih (fun k hk => h k (List.mem_cons_of_mem _ hk))
      rcases Option.isSome_iff_exists.mp hrest with ⟨r, hr⟩
      rw [hr]
      rfl

/-- `Array.prototype.sort` on string keys: lexicographic order. -/
def sortStrs (l : List Str) : List Str := List.insertionSort (fun a b => a ≤ b) l

/-! ## The 2018 body formatters (`CategorySortingBodyFormatter`,
`SubCategorySortingBodyFormatter`) -/

/-- One bullet of the 2018 formatters:
`- \x60path[:line]\x60: [detail](deepLink)`.  The code dereferences
`c.sourceLocation.path` with no guard, so a comment with no source
location throws (`none`); `lineFrom1` is rendered only when truthy
(present and nonzero).  The external `deepLink` builder is a function
argument. -/
def renderCommentLine (dl : SourceLocation → Str) (c : ReviewComment) : Option Str :=
  match c.sourceLocation with
  | none => none
  | some loc =>
    some ("- `".data ++ loc.path ++
      (match loc.lineFrom1 with
       | some n => if n = 0 then [] else ':' :: (Nat.repr n).data
       | none => []) ++
      "`: [".data ++ c.detail ++ "](".data ++ dl loc ++ ")\n".data)

/-- `CategorySortingBodyFormatter` (2018 version): unique categories in
sorted order, each a `## category` heading followed by the bullet of
every comment of that category, joined with newlines. -/
def CategorySortingBodyFormatter (dl : SourceLocation → Str) (comments : List ReviewComment) :
    Option Str :=
  buildBlocks
    (fun cat =>
      (mapOpt (renderCommentLine dl)
          (comments.filter (fun c => decide (c.category = cat)))).map
        (fun lines => "## ".data ++ cat ++ "\n".data ++ List.intercalate "\n".data lines))
    (sortStrs (uniqFirst (comments.map ReviewComment.category)))

/-- `c.subcategory || "n/a"`: the default label when the subcategory is
absent or empty (falsy). -/
def subcategoryOrNA (c : ReviewComment) : Str :=
  match c.subcategory with
  | some s => if s = [] then "n/a".data else s
  | none => "n/a".data

/-- `SubCategorySortingBodyFormatter` (2018 version): unique subcategory
labels (defaulted with `n/a`) in sorted order, each a `## label` heading,
but the per-label filter compares `c.subcategory === label` strictly, so
a comment with no subcategory matches no label. -/
def SubCategorySortingBodyFormatter (dl : SourceLocation → Str) (comments : List ReviewComment) :
    Option Str :=
  buildBlocks
    (fun sc =>
      (mapOpt (renderCommentLine dl)
          (comments.filter (fun c => decide (c.subcategory = some sc)))).map
        (fun lines => "## ".data ++ sc ++ "\n".data ++ List.intercalate "\n".data lines))
    (sortStrs (uniqFirst (comments.map subcategoryOrNA)))

end IssuePack

namespace IssuePack

/-! ## Theorems for formatter partiality (claim C10) -/

/-- C10 (amended): the 2018 sorting body formatters are total when every
comment carries a source location.  Without that precondition the
unguarded `c.sourceLocation.path` dereference throws: the category
formatter throws on every list containing a location-less comment, and
the subcategory formatter throws whenever such a comment carries a
nonempty subcategory — but a comment lacking both subcategory and
location is silently skipped (only its `n/a` heading is emitted), so the
subcategory formatter does not throw on every such list. -/
theorem sortingBodyFormatters_throw_behavior (dl : SourceLocation → Str)
    (comments : List ReviewComment) :
    ((∀ c ∈ comments, c.sourceLocation.isSome) →
      (CategorySortingBodyFormatter dl comments).isSome ∧
      (SubCategorySortingBodyFormatter dl comments).isSome) ∧
    (∀ c ∈ comments, c.sourceLocation = none →
      CategorySortingBodyFormatter dl comments = none ∧
      (∀ sc, c.subcategory = some sc → sc ≠ [] →
        SubCategorySortingBodyFormatter dl comments = none)) := by
  constructor
  · intro h
    constructor
    · apply buildBlocks_isSome
      intro k _
      have hm : (mapOpt (renderCommentLine dl)
          (comments.filter (fun c => decide (c.category = k)))).isSome := by
        apply mapOpt_isSome
        intro c hc
        have hcm := List.mem_of_mem_filter hc
        rcases Option.isSome_iff_exists.mp (h c hcm) with ⟨loc, hloc⟩
        rw [renderCommentLine, hloc]
        rfl
      rcases Option.isSome_iff_exists.mp hm with ⟨r, hr⟩
      rw [hr]
      rfl
    · apply buildBlocks_isSome
      intro k _
      have hm : (mapOpt (renderCommentLine dl)
          (comments.filter (fun c => decide (c.subcategory = some k)))).isSome := by
        apply mapOpt_isSome
        intro c hc
        have hcm := List.mem_of_mem_filter hc
        rcases Option.isSome_iff_exists.mp (h c hcm) with ⟨loc, hloc⟩
        rw [renderCommentLine, hloc]
        rfl
      rcases Option.isSome_iff_exists.mp hm with ⟨r, hr⟩
      rw [hr]
      rfl
  · intro c hc hloc
    constructor
    · apply buildBlocks_eq_none _ (k := c.category)
      · rw [sortStrs, List.mem_insertionSort, uniqFirst_mem]
        exact List.mem_map_of_mem ReviewComment.category hc
      · have hmo : mapOpt (renderCommentLine dl)
            (comments.filter (fun x => decide (x.category = c.category))) = none := by
          apply mapOpt_eq_none _ (a := c)
          · exact List.mem_filter.mpr ⟨hc, by simp⟩
          · rw [renderCommentLine, hloc]
        rw [hmo]
        rfl
    · intro sc hsc hne
      apply buildBlocks_eq_none _ (k := sc)
      · rw [sortStrs, List.mem_insertionSort, uniqFirst_mem]
        have : subcategoryOrNA c = sc := by
          rw [subcategoryOrNA, hsc]
          simp [hne]
        exact this ▸ List.mem_map_of_mem subcategoryOrNA hc
      · have hmo : mapOpt (renderCommentLine dl)
            (comments.filter (fun x => decide (x.subcategory = some sc))) = none := by
          apply mapOpt_eq_none _ (a := c)
          · exact List.mem_filter.mpr ⟨hc, by simp [hsc]⟩
          · rw [renderCommentLine, hloc]
        rw [hmo]
        rfl

/-- C10 counterexample: the claim asserts the formatter throws on every
input list containing a location-less comment, but the subcategory
formatter returns normally (an empty `n/a` section) on a comment that has
neither a subcategory nor a source location. -/
theorem subCategoryFormatter_no_throw_counterexample :
    (ReviewComment.mk "cat".data none Severity.info "d".data none).sourceLocation = none ∧
    SubCategorySortingBodyFormatter (fun _ => [])
        [ReviewComment.mk "cat".data none Severity.info "d".data none] =
      some ("## n/a\n".data) := by
  exact ⟨rfl, by decide⟩

/-- C10 witness: on a location-less comment that does carry a subcategory,
both formatters throw, as the amended theorem states. -/
theorem sortingBodyFormatters_throw_behavior_witness :
    (ReviewComment.mk "cat".data (some "sub".data) Severity.warn "d".data none ∈
      [ReviewComment.mk "cat".data (some "sub".data) Severity.warn "d".data none]) ∧
    (ReviewComment.mk "cat".data (some "sub".data) Severity.warn "d".data none).sourceLocation
      = none ∧
    CategorySortingBodyFormatter (fun _ => [])
      [ReviewComment.mk "cat".data (some "sub".data) Severity.warn "d".data none] = none ∧
    SubCategorySortingBodyFormatter (fun _ => [])
      [ReviewComment.mk "cat".data (some "sub".data) Severity.warn "d".data none] = none := by
  have h := (sortingBodyFormatters_throw_behavior (fun _ => [])
    [ReviewComment.mk "cat".data (some "sub".data) Severity.warn "d".data none]).2
    (ReviewComment.mk "cat".data (some "sub".data) Severity.warn "d".data none)
    (List.mem_cons_self _ _) rfl
  exact ⟨List.mem_cons_self _ _, rfl, h.1, h.2 "sub".data rfl (by decide)⟩

end IssuePack

namespace IssuePack

/-! ## The current subcategory body formatter, modelled from the spec
(claim C9) -/

/-- Severity rendered into a comment bullet. -/
def severityStr : Severity → Str
  | Severity.info => "info".data
  | Severity.warn => "warn".data
  | Severity.error => "error".data

/-- Modelled from the spec: `reviewCommentToMarkdown` of the current
listener file is missing from the sources (only its unit tests are
present); per the spec a comment renders as one Markdown bullet with an
optional location prefix followed by the severity and detail. -/
def reviewCommentToMarkdownSpec (c : ReviewComment) : Str :=
  "- ".data ++
    (match c.sourceLocation with
     | some loc => "`".data ++ loc.path ++
         (match loc.lineFrom1 with
          | some n => ':' :: (Nat.repr n).data
          | none => []) ++ "`: ".data
     | none => []) ++
    "_(".data ++ severityStr c.severity ++ ")_ ".data ++ c.detail ++ "\n".data

/-- Modelled from the spec: the default subcategory label is `n/a` when
the comment has none. -/
def subcategoryLabelSpec (c : ReviewComment) : Str := c.subcategory.getD "n/a".data

/-- Modelled from the spec: one `### subcategory` section of the current
`SubCategorySortingBodyFormatter` — the heading, then the bullets of this
label's comments in the canonical comment order.  The spec leaves that
ordering rule abstract, so the sort is passed in and assumed to permute
its input. -/
def sectionForSpec (csort : List ReviewComment → List ReviewComment)
    (comments : List ReviewComment) (lbl : Str) : Str :=
  "### ".data ++ lbl ++ "\n\n".data ++
    (csort (comments.filter (fun c => decide (subcategoryLabelSpec c = lbl)))).flatMap
      reviewCommentToMarkdownSpec ++ "\n".data

/-- Modelled from the spec: the current `SubCategorySortingBodyFormatter`
is missing from the sources (only its unit tests are present); per the
spec it emits one section per subcategory label, headings in alphabetical
order, labels defaulted to `n/a`. -/
def SubCategorySortingBodyFormatterSpec (csort : List ReviewComment → List ReviewComment)
    (comments : List ReviewComment) : Str :=
  (sortStrs (uniqFirst (comments.map subcategoryLabelSpec))).flatMap
    (sectionForSpec csort comments)

/-- C9: a comment with no subcategory is rendered by the subcategory
formatter inside the section headed by the default label `n/a`, and the
section headings appear in alphabetical order. -/
theorem subCategorySpec_renders_na (csort : List ReviewComment → List ReviewComment)
    (hcs : ∀ l, List.Perm (csort l) l) (comments : List ReviewComment) (c : ReviewComment)
    (hc : c ∈ comments) (hsub : c.subcategory = none) :
    (∃ pre post, SubCategorySortingBodyFormatterSpec csort comments =
        pre ++ sectionForSpec csort comments ("n/a".data) ++ post) ∧
    reviewCommentToMarkdownSpec c <:+: sectionForSpec csort comments ("n/a".data) ∧
    List.Sorted (fun a b : Str => a ≤ b)
      (sortStrs (uniqFirst (comments.map subcategoryLabelSpec))) := by
  have hlbl : subcategoryLabelSpec c = "n/a".data := by
    rw [subcategoryLabelSpec, hsub]
    rfl
  have hmem : "n/a".data ∈ sortStrs (uniqFirst (comments.map subcategoryLabelSpec)) := by
    rw [sortStrs, List.mem_insertionSort, uniqFirst_mem]
    exact hlbl ▸ List.mem_map_of_mem subcategoryLabelSpec hc
  refine ⟨?_, ?_, List.sorted_insertionSort _ _⟩
  · rcases List.append_of_mem hmem with ⟨s, t, hst⟩
    refine ⟨(s.flatMap (sectionForSpec csort comments)),
      (t.flatMap (sectionForSpec csort comments)), ?_⟩
    rw [SubCategorySortingBodyFormatterSpec, hst]
    simp [List.append_assoc]
  · have hcf : c ∈ csort (comments.filter
        (fun x => decide (subcategoryLabelSpec x = "n/a".data))) := by
      rw [(hcs _).mem_iff]
      exact List.mem_filter.mpr ⟨hc, by simp [hlbl]⟩
    rcases List.append_of_mem hcf with ⟨s, t, hst⟩
    have hinfix1 : reviewCommentToMarkdownSpec c <:+:
        (csort (comments.filter
          (fun x => decide (subcategoryLabelSpec x = "n/a".data)))).flatMap
          reviewCommentToMarkdownSpec := by
      rw [hst]
      exact ⟨s.flatMap reviewCommentToMarkdownSpec,
        t.flatMap reviewCommentToMarkdownSpec, by simp⟩
    refine hinfix1.trans ?_
    rw [sectionForSpec]
    exact ⟨"### ".data ++ "n/a".data ++ "\n\n".data, "\n".data, by simp [List.append_assoc]⟩

/-- C9 witness: a concrete single comment without a subcategory, rendered
under the `n/a` heading by the identity canonical sort. -/
theorem subCategorySpec_renders_na_witness :
    ((⟨"k".data, none, Severity.info, "d".data, none⟩ : ReviewComment) ∈
      [(⟨"k".data, none, Severity.info, "d".data, none⟩ : ReviewComment)]) ∧
    (⟨"k".data, none, Severity.info, "d".data, none⟩ : ReviewComment).subcategory = none ∧
    reviewCommentToMarkdownSpec ⟨"k".data, none, Severity.info, "d".data, none⟩ <:+:
      sectionForSpec (fun l => l)
        [⟨"k".data, none, Severity.info, "d".data, none⟩] ("n/a".data) := by
  have h := subCategorySpec_renders_na (fun l => l) (fun l => List.Perm.refl l)
    [⟨"k".data, none, Severity.info, "d".data, none⟩]
    ⟨"k".data, none, Severity.info, "d".data, none⟩ (List.mem_cons_self _ _) rfl
  exact ⟨List.mem_cons_self _ _, rfl, h.2.1⟩

end IssuePack

namespace IssuePack

/-- The `\n\n` separator between a formatted body and its tag suffix,
kept opaque so rewriting is stable. -/
def nlnl : Str := '\n' :: '\n' :: []

/-! ## The issue-managing review listeners (2018 listener file):
state-passing embedding.  A run consumes the review comments and an
abstract GitHub issue store and yields the list of HTTP actions performed
(searches, creates, updates) together with the resulting store. -/

/-- One HTTP call of a listener run, in order of execution. -/
inductive Action where
  | create (title body : Str)
  | update (number : Nat) (state : IssueState) (body : Str)
  | comment (number : Nat) (body : Str)
  | search (q : Str)
deriving DecidableEq, Repr

/-- The create calls of a run. -/
def countCreates (as : List Action) : Nat :=
  as.countP (fun a => match a with | Action.create _ _ => true | _ => false)

/-- The update calls of a run (closing an issue is an update with state
`closed`). -/
def countUpdates (as : List Action) : Nat :=
  as.countP (fun a => match a with | Action.update _ _ _ => true | _ => false)

/-- The issue title the per-category listener manages for a category. -/
def ciTitle (cat : Str) : Str := "Code Inspection: ".data ++ cat

/-- The url GitHub assigns a new issue of this repository. -/
def issueUrlFor (owner repo : Str) (n : Nat) : Str :=
  "https://github.com".data ++ repoIssuesPath owner repo ++ (Nat.repr n).data

/-- The issue GitHub stores after a create call: open, with a fresh
number and a url under this repository. -/
def mkIssue (owner repo : Str) (n : Nat) (title body : Str) : KnownIssue :=
  ⟨title, body, IssueState.opened, n, issueUrlFor owner repo n⟩

/-- A PATCH of state and body applied to the store. -/
def storeUpdate (store : List KnownIssue) (n : Nat) (st : IssueState) (body : Str) :
    List KnownIssue :=
  store.map (fun i => if i.number = n then ⟨i.title, body, st, i.number, i.url⟩ else i)

/-- `_.groupBy(comments, "category")` with `for (const category in …)`:
keys in first-occurrence order, each category with its comments in
original order. -/
def groupByCategory (cs : List ReviewComment) : List (Str × List ReviewComment) :=
  (uniqFirst (cs.map ReviewComment.category)).map
    (fun k => (k, cs.filter (fun c => decide (c.category = k))))

/-- The per-category loop of `singleIssuePerCategoryManagingReviewListener`:
for each category, search by title; create when absent (body is the
formatted comments plus the tag suffix), update to open when the
recomputed body differs, do nothing when it is unchanged; previously
known issues whose title is seen are dropped from the stale list.
Returns (actions, store, remaining stale issues). -/
def processCats (owner repo : Str) (fmt : List ReviewComment → Str) (tag : Str) :
    List (Str × List ReviewComment) → List KnownIssue → List KnownIssue →
    List Action × List KnownIssue × List KnownIssue
  | [], store, known => ([], store, known)
  | (cat, cms) :: rest, store, known =>
    let title := ciTitle cat
    let known1 := known.filter (fun i => decide (i.title ≠ title))
    let body := fmt cms ++ nlnl ++ tag
    match findIssue store owner repo title with
    | none =>
      let ni := mkIssue owner repo (store.length + 1) title body
      let res := processCats owner repo fmt tag rest (store ++ [ni]) known1
      (Action.search title :: Action.create title body :: res.1, res.2)
    | some ex =>
      if body = ex.body then
        let res := processCats owner repo fmt tag rest store known1
        (Action.search title :: res.1, res.2)
      else
        let res := processCats owner repo fmt tag rest
          (storeUpdate store ex.number IssueState.opened body) known1
        (Action.search title :: Action.update ex.number IssueState.opened body :: res.1, res.2)

/-- `singleIssuePerCategoryManagingReviewListener` (2018 listener file):
ignore pushes off the default branch; group the relevant comments by
category; search the known issues by tag; reconcile each category; close
every remaining known issue (an update to state `closed`, body kept). -/
def perCategoryRun (owner repo source : Str) (commentFilter : ReviewComment → Bool)
    (fmt : List ReviewComment → Str) (branch defaultBranch : Str)
    (comments : List ReviewComment) (store : List KnownIssue) :
    List Action × List KnownIssue :=
  if branch = defaultBranch then
    let groups := groupByCategory (comments.filter commentFilter)
    let tag := createTag source
    let known := findIssues store owner repo tag
    let res := processCats owner repo fmt tag groups store known
    (Action.search tag :: res.1 ++
        res.2.2.map (fun i => Action.update i.number IssueState.closed i.body),
      res.2.2.foldl (fun s i => storeUpdate s i.number IssueState.closed i.body) res.2.1)
  else ([], store)

/-- The push fields the single-issue listener reads. -/
structure PushInfo where
  branch : Str
  defaultBranch : Str
  sha : Str
  screenName : Option Str := none
  committerToken : Option Str := none
  url : Str
deriving Repr

/-- `who(push)`: the committer's slack mention when a chat screen name is
known, else the committer token, else `someone`. -/
def who (p : PushInfo) : Str :=
  match p.screenName with
  | some s => "<@".data ++ s ++ ">".data
  | none => p.committerToken.getD "someone".data

/-- `linkToSha(id)`: slack link to the commit tree at the push sha,
labelled with the first seven sha characters. -/
def linkToSha (p : PushInfo) : Str :=
  "<".data ++ p.url ++ "/tree/".data ++ p.sha ++ "|".data ++ p.sha.take 7 ++ ">".data

/-- The celebratory body `singleIssueManagingReviewListener` writes when
closing its issue. -/
def congratsBody (p : PushInfo) : Str :=
  "The last review problem was fixed by ".data ++ who p ++
    " when they pushed ".data ++ linkToSha p

/-- `singleIssueManagingReviewListener` (2018 listener file): ignore
pushes off the default branch; with no relevant comments close the
existing issue (rewriting its body to the congratulations text); else
create the issue when absent or update it to open when the body
changed. -/
def singleIssueRun (owner repo : Str) (commentFilter : ReviewComment → Bool)
    (title : Str) (fmt : List ReviewComment → Str) (push : PushInfo)
    (comments : List ReviewComment) (store : List KnownIssue) :
    List Action × List KnownIssue :=
  if push.branch = push.defaultBranch then
    let relevant := comments.filter commentFilter
    match findIssue store owner repo title with
    | some ex =>
      if relevant = [] then
        ([Action.search title,
            Action.update ex.number IssueState.closed (congratsBody push)],
          storeUpdate store ex.number IssueState.closed (congratsBody push))
      else
        if fmt relevant = ex.body then
          ([Action.search title], store)
        else
          ([Action.search title, Action.update ex.number IssueState.opened (fmt relevant)],
            storeUpdate store ex.number IssueState.opened (fmt relevant))
    | none =>
      if relevant = [] then
        ([Action.search title], store)
      else
        ([Action.search title, Action.create title (fmt relevant)],
          store ++ [mkIssue owner repo (store.length + 1) title (fmt relevant)])
  else ([], store)

end IssuePack

namespace IssuePack

/-! ## Theorems for the branch policy (claim C8) -/

/-- C8: a push whose branch differs from the repository default branch
produces no issue activity at all: neither listener performs any search,
create, update or close call, and the issue store is unchanged. -/
theorem offDefaultBranch_no_activity (owner repo source title : Str)
    (commentFilter : ReviewComment → Bool) (fmt : List ReviewComment → Str)
    (push : PushInfo) (comments : List ReviewComment) (store : List KnownIssue)
    (hb : push.branch ≠ push.defaultBranch) :
    perCategoryRun owner repo source commentFilter fmt push.branch push.defaultBranch
        comments store = ([], store) ∧
    singleIssueRun owner repo commentFilter title fmt push comments store = ([], store) := by
  constructor
  · rw [perCategoryRun, if_neg hb]
  · rw [singleIssueRun, if_neg hb]

/-- C8 witness: a concrete push to a non-default branch leaves a concrete
store untouched with no calls. -/
theorem offDefaultBranch_no_activity_witness :
    (PushInfo.mk "dev".data "master".data "abc1234def".data none none "u".data).branch ≠
      (PushInfo.mk "dev".data "master".data "abc1234def".data none none "u".data).defaultBranch ∧
    perCategoryRun "o".data "r".data "s".data (fun _ => true) (fun _ => "B".data)
        "dev".data "master".data []
        [⟨"T".data, "b".data, IssueState.opened, 1, "x".data⟩] =
      ([], [⟨"T".data, "b".data, IssueState.opened, 1, "x".data⟩]) ∧
    singleIssueRun "o".data "r".data (fun _ => true) "T".data (fun _ => "B".data)
        (PushInfo.mk "dev".data "master".data "abc1234def".data none none "u".data) []
        [⟨"T".data, "b".data, IssueState.opened, 1, "x".data⟩] =
      ([], [⟨"T".data, "b".data, IssueState.opened, 1, "x".data⟩]) := by
  have h := offDefaultBranch_no_activity "o".data "r".data "s".data "T".data
    (fun _ => true) (fun _ => "B".data)
    (PushInfo.mk "dev".data "master".data "abc1234def".data none none "u".data) []
    [⟨"T".data, "b".data, IssueState.opened, 1, "x".data⟩] (by decide)
  exact ⟨by decide, h.1, h.2⟩

/-! ## Helper lemmas towards reconciler idempotence (claim C1) -/

theorem findIssue_of_filter_nil {store : List KnownIssue} {owner repo title : Str}
    (h : store.filter (issueTitleMatch owner repo title) = []) :
    findIssue store owner repo title = none := by
  simp [findIssue, h]

theorem findIssue_of_filter_singleton {store : List KnownIssue} {owner repo title : Str}
    {i : KnownIssue} (h : store.filter (issueTitleMatch owner repo title) = [i]) :
    findIssue store owner repo title = some i := by
  simp [findIssue, h]

theorem ciTitle_inj {a b : Str} (h : ciTitle a = ciTitle b) : a = b := by
  rw [ciTitle, ciTitle] at h
  exact List.append_cancel_left h

theorem issueTitleMatch_mkIssue_self (owner repo : Str) (n : Nat) (t b : Str) :
    issueTitleMatch owner repo t (mkIssue owner repo n t b) = true := by
  rw [issueTitleMatch, mkIssue, Bool.and_eq_true]
  refine ⟨by simp, decide_eq_true ?_⟩
  exact ⟨"https://github.com".data, (Nat.repr n).data, by rw [issueUrlFor]⟩

theorem issueTitleMatch_ne_title {owner repo t : Str} {i : KnownIssue}
    (h : i.title ≠ t) : issueTitleMatch owner repo t i = false := by
  rw [issueTitleMatch]
  simp [h]

theorem issueBodyMatch_mkIssue_tag (owner repo : Str) (n : Nat) (t x tag : Str) :
    issueBodyMatch owner repo tag
      (mkIssue owner repo n t (x ++ nlnl ++ tag)) = true := by
  rw [issueBodyMatch, mkIssue, Bool.and_eq_true]
  refine ⟨decide_eq_true ?_, decide_eq_true ?_⟩
  · exact ⟨x ++ nlnl, [], by simp⟩
  · exact ⟨"https://github.com".data, (Nat.repr n).data, by rw [issueUrlFor]⟩

/-- The issues the first run creates: one per category group, numbered
from the store size at creation time. -/
def freshIssues (owner repo : Str) (fmt : List ReviewComment → Str) (tag : Str) :
    List (Str × List ReviewComment) → Nat → List KnownIssue
  | [], _ => []
  | (cat, cms) :: rest, n =>
    mkIssue owner repo (n + 1) (ciTitle cat) (fmt cms ++ nlnl ++ tag) ::
      freshIssues owner repo fmt tag rest (n + 1)

/-- The trace of the first run: a title search and a create per group. -/
def createTrace (fmt : List ReviewComment → Str) (tag : Str) :
    List (Str × List ReviewComment) → List Action
  | [] => []
  | (cat, cms) :: rest =>
    Action.search (ciTitle cat) ::
      Action.create (ciTitle cat) (fmt cms ++ nlnl ++ tag) ::
        createTrace fmt tag rest

theorem freshIssues_mem {owner repo : Str} {fmt : List ReviewComment → Str} {tag : Str} :
    ∀ {groups : List (Str × List ReviewComment)} {n : Nat} {i : KnownIssue},
      i ∈ freshIssues owner repo fmt tag groups n →
      ∃ g ∈ groups, ∃ m, i = mkIssue owner repo m (ciTitle g.1)
        (fmt g.2 ++ nlnl ++ tag)
  | [], _, _, h => absurd h (List.not_mem_nil _)
  | (cat, cms) :: rest, n, i, h => by
    rw [freshIssues] at h
    rcases List.mem_cons.mp h with h | h
    · exact ⟨(cat, cms), List.mem_cons_self _ _, n + 1, h⟩
    · rcases freshIssues_mem h with ⟨g, hg, m, hm⟩
      exact ⟨g, List.mem_cons_of_mem _ hg, m, hm⟩

theorem createTrace_counts (fmt : List ReviewComment → Str) (tag : Str) :
    ∀ (groups : List (Str × List ReviewComment)),
      countCreates (createTrace fmt tag groups) = groups.length ∧
      countUpdates (createTrace fmt tag groups) = 0
  | [] => by constructor <;> rfl
  | (cat, cms) :: rest => by
    have ih := createTrace_counts fmt tag rest
    rw [createTrace]
    constructor
    · rw [countCreates] at ih ⊢
      simp [List.countP_cons, ih.1]
    · rw [countUpdates] at ih ⊢
      simp [List.countP_cons, ih.2]

end IssuePack

namespace IssuePack

theorem countCreates_search_cons (q : Str) (tr : List Action) :
    countCreates (Action.search q :: tr) = countCreates tr := by
  rw [countCreates, countCreates, List.countP_cons]
  simp

theorem countUpdates_search_cons (q : Str) (tr : List Action) :
    countUpdates (Action.search q :: tr) = countUpdates tr := by
  rw [countUpdates, countUpdates, List.countP_cons]
  simp

theorem processCats_fresh (owner repo : Str) (fmt : List ReviewComment → Str) (tag : Str) :
    ∀ (groups : List (Str × List ReviewComment)) (store : List KnownIssue),
      ((groups.map Prod.fst).Nodup) →
      (∀ g ∈ groups, store.filter (issueTitleMatch owner repo (ciTitle g.1)) = []) →
      processCats owner repo fmt tag groups store [] =
        (createTrace fmt tag groups,
          store ++ freshIssues owner repo fmt tag groups store.length, [])
  | [], store, _, _ => by
    simp [processCats, createTrace, freshIssues]
  | (cat, cms) :: rest, store, hnd, hfresh => by
    have hfind : findIssue store owner repo (ciTitle cat) = none :=
      findIssue_of_filter_nil (hfresh (cat, cms) (List.mem_cons_self _ _))
    have hnd' := hnd
    rw [List.map_cons, List.nodup_cons] at hnd'
    have hfresh' : ∀ g ∈ rest,
        (store ++ [mkIssue owner repo (store.length + 1) (ciTitle cat)
          (fmt cms ++ nlnl ++ tag)]).filter
            (issueTitleMatch owner repo (ciTitle g.1)) = [] := by
      intro g hg
      rw [List.filter_append, hfresh g (List.mem_cons_of_mem _ hg)]
      have hne : issueTitleMatch owner repo (ciTitle g.1)
          (mkIssue owner repo (store.length + 1) (ciTitle cat)
            (fmt cms ++ nlnl ++ tag)) = false := by
        apply issueTitleMatch_ne_title
        rw [mkIssue]
        intro hteq
        apply hnd'.1
        rw [ciTitle_inj hteq]
        exact List.mem_map.mpr ⟨g, hg, rfl⟩
      simp only [List.nil_append, List.filter_cons, hne, Bool.false_eq_true, if_false,
        List.filter_nil]
    have ih := processCats_fresh owner repo fmt tag rest
      (store ++ [mkIssue owner repo (store.length + 1) (ciTitle cat)
        (fmt cms ++ nlnl ++ tag)]) hnd'.2 hfresh'
    rw [processCats]
    simp only [hfind, List.filter_nil]
    rw [ih]
    simp [createTrace, freshIssues, List.append_assoc]

theorem findIssues_fresh (owner repo : Str) (fmt : List ReviewComment → Str) (tag : Str)
    (groups : List (Str × List ReviewComment)) (n : Nat) :
    findIssues (freshIssues owner repo fmt tag groups n) owner repo tag =
      freshIssues owner repo fmt tag groups n := by
  rw [findIssues, List.filter_eq_self]
  intro i hi
  rcases freshIssues_mem hi with ⟨g, _, m, rfl⟩
  exact issueBodyMatch_mkIssue_tag owner repo m (ciTitle g.1) (fmt g.2) tag

theorem freshIssues_filter_title (owner repo : Str) (fmt : List ReviewComment → Str)
    (tag : Str) :
    ∀ (groups : List (Str × List ReviewComment)) (n : Nat),
      ((groups.map Prod.fst).Nodup) → ∀ g ∈ groups,
      ∃ m, (freshIssues owner repo fmt tag groups n).filter
          (issueTitleMatch owner repo (ciTitle g.1)) =
        [mkIssue owner repo m (ciTitle g.1) (fmt g.2 ++ nlnl ++ tag)]
  | [], _, _, g, hg => absurd hg (List.not_mem_nil _)
  | (cat, cms) :: rest, n, hnd, g, hg => by
    have hnd' := hnd
    rw [List.map_cons, List.nodup_cons] at hnd'
    rcases List.mem_cons.mp hg with hgh | hgr
    · refine ⟨n + 1, ?_⟩
      subst hgh
      rw [freshIssues, List.filter_cons]
      rw [issueTitleMatch_mkIssue_self]
      simp only [if_true]
      have hrest : (freshIssues owner repo fmt tag rest (n + 1)).filter
          (issueTitleMatch owner repo (ciTitle cat)) = [] := by
        rw [List.filter_eq_nil_iff]
        intro i hi
        rcases freshIssues_mem hi with ⟨g', hg', m', rfl⟩
        rw [issueTitleMatch_ne_title]
        · simp
        · rw [mkIssue]
          intro hteq
          apply hnd'.1
          rw [← ciTitle_inj hteq]
          exact List.mem_map.mpr ⟨g', hg', rfl⟩
      rw [hrest]
    · have hne : issueTitleMatch owner repo (ciTitle g.1)
          (mkIssue owner repo (n + 1) (ciTitle cat)
            (fmt cms ++ nlnl ++ tag)) = false := by
        apply issueTitleMatch_ne_title
        rw [mkIssue]
        intro hteq
        apply hnd'.1
        rw [ciTitle_inj hteq]
        exact List.mem_map.mpr ⟨g, hgr, rfl⟩
      rcases freshIssues_filter_title owner repo fmt tag rest (n + 1) hnd'.2 g hgr
        with ⟨m, hm⟩
      refine ⟨m, ?_⟩
      rw [freshIssues, List.filter_cons, hne]
      simp only [if_false, Bool.false_eq_true]
      exact hm

theorem processCats_noop (owner repo : Str) (fmt : List ReviewComment → Str) (tag : Str) :
    ∀ (groups : List (Str × List ReviewComment)) (store known : List KnownIssue),
      (∀ g ∈ groups, ∃ m, store.filter (issueTitleMatch owner repo (ciTitle g.1)) =
        [mkIssue owner repo m (ciTitle g.1) (fmt g.2 ++ nlnl ++ tag)]) →
      ∃ tr kn, processCats owner repo fmt tag groups store known = (tr, store, kn) ∧
        countCreates tr = 0 ∧ countUpdates tr = 0 ∧
        (∀ i ∈ kn, i ∈ known ∧ ∀ g ∈ groups, i.title ≠ ciTitle g.1)
  | [], store, known, _ =>
    ⟨[], known, rfl, rfl, rfl,
      fun i hi => ⟨hi, fun g hg => absurd hg (List.not_mem_nil _)⟩⟩
  | (cat, cms) :: rest, store, known, hex => by
    rcases hex (cat, cms) (List.mem_cons_self _ _) with ⟨m, hf⟩
    have hfind := findIssue_of_filter_singleton hf
    rcases processCats_noop owner repo fmt tag rest store
        (known.filter (fun i => decide (i.title ≠ ciTitle cat)))
        (fun g hg => hex g (List.mem_cons_of_mem _ hg))
      with ⟨tr, kn, heq, h0, h1, hprop⟩
    refine ⟨Action.search (ciTitle cat) :: tr, kn, ?_, ?_, ?_, ?_⟩
    · rw [processCats]
      simp only [hfind]
      rw [if_pos (show fmt cms ++ nlnl ++ tag =
        (mkIssue owner repo m (ciTitle cat) (fmt cms ++ nlnl ++ tag)).body from rfl), heq]
    · rw [countCreates_search_cons]
      exact h0
    · rw [countUpdates_search_cons]
      exact h1
    · intro i hi
      rcases hprop i hi with ⟨hik, hall⟩
      rcases List.mem_filter.mp hik with ⟨hikn, hdec⟩
      refine ⟨hikn, fun g hg => ?_⟩
      rcases List.mem_cons.mp hg with hgh | hgr
      · subst hgh
        exact of_decide_eq_true hdec
      · exact hall g hgr

end IssuePack

namespace IssuePack

theorem groupByCategory_keys_nodup (cs : List ReviewComment) :
    ((groupByCategory cs).map Prod.fst).Nodup := by
  rw [groupByCategory, List.map_map]
  have hid : (Prod.fst ∘ fun k : Str => (k, cs.filter (fun c => decide (c.category = k))))
      = id := rfl
  rw [hid, List.map_id]
  exact uniqFirst_nodup _

/-- C1: running the per-category review listener on an empty issue store
performs one create per category group and no update; running it a second
time over the unchanged comment set recomputes every body equal to the
stored one, so the second run performs no create, no update (and no
close), and leaves the store exactly as the first run left it. -/
theorem perCategoryRun_idempotent (owner repo source : Str)
    (commentFilter : ReviewComment → Bool) (fmt : List ReviewComment → Str)
    (branch defaultBranch : Str) (comments : List ReviewComment)
    (hb : branch = defaultBranch) :
    countCreates (perCategoryRun owner repo source commentFilter fmt branch defaultBranch
        comments []).1 =
      (groupByCategory (comments.filter commentFilter)).length ∧
    countUpdates (perCategoryRun owner repo source commentFilter fmt branch defaultBranch
        comments []).1 = 0 ∧
    countCreates (perCategoryRun owner repo source commentFilter fmt branch defaultBranch
        comments
        (perCategoryRun owner repo source commentFilter fmt branch defaultBranch
          comments []).2).1 = 0 ∧
    countUpdates (perCategoryRun owner repo source commentFilter fmt branch defaultBranch
        comments
        (perCategoryRun owner repo source commentFilter fmt branch defaultBranch
          comments []).2).1 = 0 ∧
    (perCategoryRun owner repo source commentFilter fmt branch defaultBranch comments
        (perCategoryRun owner repo source commentFilter fmt branch defaultBranch
          comments []).2).2 =
      (perCategoryRun owner repo source commentFilter fmt branch defaultBranch
        comments []).2 := by
  have hnd := groupByCategory_keys_nodup (comments.filter commentFilter)
  have hp1 := processCats_fresh owner repo fmt (createTag source)
    (groupByCategory (comments.filter commentFilter)) [] hnd
    (fun g _ => rfl)
  have hrun1 : perCategoryRun owner repo source commentFilter fmt branch defaultBranch
      comments [] =
      (Action.search (createTag source) ::
        createTrace fmt (createTag source) (groupByCategory (comments.filter commentFilter)),
       freshIssues owner repo fmt (createTag source)
         (groupByCategory (comments.filter commentFilter)) 0) := by
    rw [perCategoryRun, if_pos hb]
    have hknown : findIssues ([] : List KnownIssue) owner repo (createTag source) = [] := rfl
    simp only [hknown, hp1, List.nil_append, List.map_nil, List.append_nil, List.length_nil,
      List.foldl_nil]
  have hfilters := freshIssues_filter_title owner repo fmt (createTag source)
    (groupByCategory (comments.filter commentFilter)) 0 hnd
  rcases processCats_noop owner repo fmt (createTag source)
      (groupByCategory (comments.filter commentFilter))
      (freshIssues owner repo fmt (createTag source)
        (groupByCategory (comments.filter commentFilter)) 0)
      (freshIssues owner repo fmt (createTag source)
        (groupByCategory (comments.filter commentFilter)) 0)
      hfilters
    with ⟨tr, kn, heq, h0, h1, hprop⟩
  have hkn : kn = [] := by
    rw [List.eq_nil_iff_forall_not_mem]
    intro i hi
    rcases hprop i hi with ⟨hik, hall⟩
    rcases freshIssues_mem hik with ⟨g, hg, mm, rfl⟩
    exact hall g hg rfl
  have hrun2 : perCategoryRun owner repo source commentFilter fmt branch defaultBranch
      comments
      (freshIssues owner repo fmt (createTag source)
        (groupByCategory (comments.filter commentFilter)) 0) =
      (Action.search (createTag source) :: tr,
       freshIssues owner repo fmt (createTag source)
         (groupByCategory (comments.filter commentFilter)) 0) := by
    rw [perCategoryRun, if_pos hb]
    simp only [findIssues_fresh, heq, hkn, List.map_nil, List.append_nil, List.foldl_nil]
  have hr12 : (perCategoryRun owner repo source commentFilter fmt branch defaultBranch
      comments []).2 =
      freshIssues owner repo fmt (createTag source)
        (groupByCategory (comments.filter commentFilter)) 0 := by
    rw [hrun1]
  rw [hr12, hrun2, hrun1]
  dsimp only
  refine ⟨?_, ?_, ?_, ?_, rfl⟩
  · rw [countCreates_search_cons]
    exact (createTrace_counts fmt (createTag source) _).1
  · rw [countUpdates_search_cons]
    exact (createTrace_counts fmt (createTag source) _).2
  · rw [countCreates_search_cons]
    exact h0
  · rw [countUpdates_search_cons]
    exact h1

/-- C1 witness: a concrete one-category comment set on an empty store:
the first run performs exactly one create, the second run performs no
create and no update and leaves the store unchanged. -/
theorem perCategoryRun_idempotent_witness :
    countCreates (perCategoryRun "o".data "r".data "s".data (fun _ => true)
        (fun _ => "B".data) "master".data "master".data
        [⟨"cat".data, none, Severity.warn, "d".data, none⟩] []).1 = 1 ∧
    countUpdates (perCategoryRun "o".data "r".data "s".data (fun _ => true)
        (fun _ => "B".data) "master".data "master".data
        [⟨"cat".data, none, Severity.warn, "d".data, none⟩]
        (perCategoryRun "o".data "r".data "s".data (fun _ => true)
          (fun _ => "B".data) "master".data "master".data
          [⟨"cat".data, none, Severity.warn, "d".data, none⟩] []).2).1 = 0 ∧
    countCreates (perCategoryRun "o".data "r".data "s".data (fun _ => true)
        (fun _ => "B".data) "master".data "master".data
        [⟨"cat".data, none, Severity.warn, "d".data, none⟩]
        (perCategoryRun "o".data "r".data "s".data (fun _ => true)
          (fun _ => "B".data) "master".data "master".data
          [⟨"cat".data, none, Severity.warn, "d".data, none⟩] []).2).1 = 0 := by
  have h := perCategoryRun_idempotent "o".data "r".data "s".data (fun _ => true)
    (fun _ => "B".data) "master".data "master".data
    [⟨"cat".data, none, Severity.warn, "d".data, none⟩] rfl
  refine ⟨?_, h.2.2.2.1, h.2.2.1⟩
  rw [h.1]
  decide

end IssuePack

namespace IssuePack

/-! ## The stale-issue close path of the current per-category listener,
modelled from the spec (claim C2) -/

/-- Modelled from the spec: the closing comment of the current
`singleIssuePerCategoryManagingReviewListener` is missing from the
sources (the 2018 revision present closes without commenting, and the
changelog records the change to close-with-comment); per the spec the
comment identifies the fixing author and commit. -/
def closingComment (p : PushInfo) : Str :=
  "The last review problem was fixed by ".data ++ who p ++
    " when they pushed ".data ++ linkToSha p

/-- Modelled from the spec: closing one previously-known issue whose
category is no longer present — first post the closing comment, then set
the state to `closed`. -/
def closeStaleIssue (p : PushInfo) (i : KnownIssue) : List Action :=
  [Action.comment i.number (closingComment p),
   Action.update i.number IssueState.closed i.body]

/-- Modelled from the spec: the close phase over all remaining
previously-known issues, in order. -/
def closeStalePhaseSpec (p : PushInfo) (known : List KnownIssue) : List Action :=
  known.flatMap (closeStaleIssue p)

/-- C2: for every previously-known issue whose category is gone, the
reconciler's close phase posts the closing comment — which names the
fixing author and links the fixing commit — immediately followed by the
update that sets the issue's state to `closed`. -/
theorem closeStalePhase_comment_then_close (push : PushInfo) (known : List KnownIssue)
    (i : KnownIssue) (hi : i ∈ known) :
    (∃ pre post, closeStalePhaseSpec push known =
        pre ++ (Action.comment i.number (closingComment push) ::
          Action.update i.number IssueState.closed i.body :: []) ++ post) ∧
    who push <:+: closingComment push ∧
    linkToSha push <:+: closingComment push := by
  refine ⟨?_, ?_, ?_⟩
  · rcases List.append_of_mem hi with ⟨s, t, rfl⟩
    refine ⟨s.flatMap (closeStaleIssue push), t.flatMap (closeStaleIssue push), ?_⟩
    rw [closeStalePhaseSpec, List.flatMap_append, List.flatMap_cons]
    rw [closeStaleIssue, List.append_assoc]
  · exact ⟨"The last review problem was fixed by ".data,
      " when they pushed ".data ++ linkToSha push,
      by rw [closingComment]; simp [List.append_assoc]⟩
  · exact ⟨"The last review problem was fixed by ".data ++ who push ++
      " when they pushed ".data, [],
      by rw [closingComment]; simp [List.append_assoc]⟩

/-- C2 witness: one concrete stale issue is closed with the comment first
and the state update second, the comment naming the author and commit. -/
theorem closeStalePhase_comment_then_close_witness :
    ((⟨"T".data, "b".data, IssueState.opened, 7, "u7".data⟩ : KnownIssue) ∈
      [(⟨"T".data, "b".data, IssueState.opened, 7, "u7".data⟩ : KnownIssue)]) ∧
    (∃ pre post, closeStalePhaseSpec
        (PushInfo.mk "master".data "master".data "abc1234def".data
          (some "alice".data) none "https://g".data)
        [⟨"T".data, "b".data, IssueState.opened, 7, "u7".data⟩] =
      pre ++ (Action.comment 7 (closingComment
          (PushInfo.mk "master".data "master".data "abc1234def".data
            (some "alice".data) none "https://g".data)) ::
        Action.update 7 IssueState.closed "b".data :: []) ++ post) ∧
    who (PushInfo.mk "master".data "master".data "abc1234def".data
        (some "alice".data) none "https://g".data) <:+:
      closingComment (PushInfo.mk "master".data "master".data "abc1234def".data
        (some "alice".data) none "https://g".data) := by
  have h := closeStalePhase_comment_then_close
    (PushInfo.mk "master".data "master".data "abc1234def".data
      (some "alice".data) none "https://g".data)
    [⟨"T".data, "b".data, IssueState.opened, 7, "u7".data⟩]
    ⟨"T".data, "b".data, IssueState.opened, 7, "u7".data⟩
    (List.mem_cons_self _ _)
  exact ⟨List.mem_cons_self _ _, h.1, h.2.1⟩

end IssuePack
